import Mathlib

/-!
Verification development for the quantum-debugger state engine.

The definitions below are a shallow embedding of the class
QuantumState in src/quantum_debugger/core/quantum_state.py and of the
gate constants in src/quantum_debugger/core/gates.py.  Amplitudes are
modelled as exact complex numbers; a numpy array of length 2^n is
modelled as a function on naturals whose entries beyond 2^n are never
read by the statements (every quantified index is bounded by 2^n).
Random draws from numpy (np.random.random, uniform on [0,1)) are passed
in explicitly as real parameters.
-/

namespace QD

noncomputable section

/-- State vectors: index-to-amplitude maps, entries 0..2^n-1 are meaningful. -/
abbrev Vec := ℕ → ℂ

/-- Matrices: entry maps, entries with both indices below the dimension are meaningful. -/
abbrev Mat := ℕ → ℕ → ℂ

/-- One bit of a basis index, mirroring the Python expression (i >> k) & 1. -/
def bitAt (i k : ℕ) : ℕ := (i >>> k) &&& 1

/-- Gate-space index built from the target-qubit bits of a full-space index,
mirroring sum(i_bits[target_qubits[k]] << k for k in range(num_gate_qubits))
in QuantumState._expand_gate_to_full_space. -/
def gateIdx (ts : List ℕ) (i : ℕ) : ℕ :=
  ∑ k ∈ Finset.range ts.length, bitAt i (ts.getD k 0) * 2 ^ k

/-- QuantumState._expand_gate_to_full_space: the full 2^n x 2^n operator for a
gate on the target qubits ts.  Every entry is assigned by the double loop of
the source: the gate entry when all non-target bits of i and j agree, and 0
otherwise. -/
def expandGate (n : ℕ) (g : Mat) (ts : List ℕ) : Mat :=
  fun i j =>
    if ∀ q ∈ (List.range n).filter (fun q => decide (q ∉ ts)), bitAt i q = bitAt j q then
      g (gateIdx ts i) (gateIdx ts j)
    else 0

/-- A gate matrix together with its qubit count k (the source recovers k as
int(np.log2(gate_matrix.shape[0])), exact for the 2^k x 2^k arrays used). -/
structure GateM where
  k : ℕ
  M : Mat

/-- QuantumState._build_full_gate_matrix: fast path returns the gate matrix
unchanged when it already spans all qubits in natural order, otherwise the
gate is expanded to the full space. -/
def buildFull (n : ℕ) (g : GateM) (ts : List ℕ) : Mat :=
  if g.k = n ∧ ts = List.range n then g.M else expandGate n g.M ts

/-- Matrix-vector product over the 2^n-dimensional space (full_matrix @ state_vector). -/
def mulVec (n : ℕ) (A : Mat) (v : Vec) : Vec :=
  fun i => ∑ j ∈ Finset.range (2 ^ n), A i j * v j

/-- Sum of squared magnitudes of the 2^n stored amplitudes. -/
def sqsum (n : ℕ) (v : Vec) : ℝ :=
  ∑ i ∈ Finset.range (2 ^ n), Complex.normSq (v i)

/-- np.linalg.norm of the stored state vector: the Euclidean norm. -/
def vnorm (n : ℕ) (v : Vec) : ℝ := Real.sqrt (sqsum n v)

/-- QuantumState._normalize: divide by the norm when it is positive, leave the
vector untouched otherwise. -/
def normalize (n : ℕ) (v : Vec) : Vec :=
  if 0 < vnorm n v then fun i => v i / (vnorm n v : ℂ) else v

/-- QuantumState.apply_gate: build the full matrix, left-multiply, renormalize. -/
def applyGate (n : ℕ) (g : GateM) (ts : List ℕ) (v : Vec) : Vec :=
  normalize n (mulVec n (buildFull n g ts) v)

/-- QuantumState.get_measurement_probability: accumulate |amplitude|^2 over the
indices whose bit at position q equals the requested outcome. -/
def getProb (n q o : ℕ) (v : Vec) : ℝ :=
  ∑ i ∈ Finset.range (2 ^ n), if bitAt i q = o then Complex.normSq (v i) else 0

/-- The un-normalized collapse step of QuantumState._collapse_state: keep the
amplitudes consistent with the outcome, zero the rest. -/
def collapseVec (q o : ℕ) (v : Vec) : Vec :=
  fun i => if bitAt i q = o then v i else 0

/-- QuantumState._collapse_state: zero the inconsistent amplitudes, renormalize. -/
def collapse (n q o : ℕ) (v : Vec) : Vec :=
  normalize n (collapseVec q o v)

/-- QuantumState.measure with the random draw r made explicit: outcome 0 when
r < P(0) and 1 otherwise, then collapse at that outcome. -/
def measure (n q : ℕ) (r : ℝ) (v : Vec) : ℕ × Vec :=
  ((if r < getProb n q 0 v then 0 else 1),
   collapse n q (if r < getProb n q 0 v then 0 else 1) v)

/-- Sequential measurement of a list of qubits, threading the collapsed state
and consuming one random draw per measurement. -/
def measureList (n : ℕ) (rs : ℕ → ℝ) : List ℕ → Vec → List ℕ × Vec
  | [], v => ([], v)
  | q :: qs, v =>
    ((measure n q (rs 0) v).1 ::
        (measureList n (fun k => rs (k + 1)) qs (measure n q (rs 0) v).2).1,
      (measureList n (fun k => rs (k + 1)) qs (measure n q (rs 0) v).2).2)

/-- QuantumState.measure_all: [self.measure(q) for q in range(self.num_qubits)]. -/
def measureAll (n : ℕ) (rs : ℕ → ℝ) (v : Vec) : List ℕ × Vec :=
  measureList n rs (List.range n) v

/-- QuantumState.__init__: with an explicit vector the length must equal 2^n
(otherwise a ValueError is raised before any state is stored, modelled by
none); on success the vector is stored and normalized.  Without a vector the
state is the basis state with amplitude 1 at index 0. -/
def initSV (n : ℕ) : Option (List ℂ) → Option Vec
  | some l =>
      if l.length = 2 ^ n then some (normalize n (fun i => l.getD i 0)) else none
  | none => some (fun i => if i = 0 then 1 else 0)

/-- QuantumState.fidelity: qubit counts must agree (otherwise a ValueError,
modelled by none); the value is np.abs(np.vdot(self, other)) squared. -/
def fidelity (n m : ℕ) (v w : Vec) : Option ℝ :=
  if n = m then
    some (Complex.abs (∑ i ∈ Finset.range (2 ^ n), (starRingEnd ℂ) (v i) * w i) ^ 2)
  else none

/-- Row-major reshape of a 4-entry state vector into a 2x2 matrix,
mirroring state_vector.reshape(2, 2). -/
def reshape2 (v : Vec) : Mat := fun r c => v (2 * r + c)

/-- Second (smaller) singular value of a 2x2 complex matrix in closed form,
modelling the value numpy SVD reports at position 1: the singular values
squared are the eigenvalues of Aᴴ @ A, whose trace is the sum of squared entry
magnitudes and whose determinant is the squared magnitude of det A; the
smaller eigenvalue is (T - sqrt(T^2 - 4 D)) / 2. -/
def sv2 (A : Mat) : ℝ :=
  Real.sqrt
    (((Complex.normSq (A 0 0) + Complex.normSq (A 0 1) +
        Complex.normSq (A 1 0) + Complex.normSq (A 1 1)) -
      Real.sqrt
        ((Complex.normSq (A 0 0) + Complex.normSq (A 0 1) +
            Complex.normSq (A 1 0) + Complex.normSq (A 1 1)) ^ 2 -
          4 * Complex.normSq (A 0 0 * A 1 1 - A 0 1 * A 1 0))) / 2)

/-- QuantumState.is_entangled: for a qubit count other than 2 the conservative
answer True; for exactly 2 qubits, False exactly when the second singular
value of the reshaped amplitude matrix is below 1e-10. -/
def isEntangled (n : ℕ) (v : Vec) : Prop :=
  if n ≠ 2 then True else ¬ (sv2 (reshape2 v) < 1e-10)

/-- GateLibrary.H: the Hadamard matrix [[1, 1], [1, -1]] / sqrt 2. -/
def Hmat : Mat :=
  fun i j =>
    if i < 2 ∧ j < 2 then
      (if i = 1 ∧ j = 1 then -1 else 1) * ((Real.sqrt 2 : ℝ) : ℂ)⁻¹
    else 0

/-- GateLibrary.CNOT in the little-endian convention of the source: control is
qubit 0, target is qubit 1; basis vectors 1 and 3 are swapped. -/
def CNOTmat : Mat :=
  fun i j =>
    if (i = 0 ∧ j = 0) ∨ (i = 1 ∧ j = 3) ∨ (i = 2 ∧ j = 2) ∨ (i = 3 ∧ j = 1) then 1
    else 0

/-- np.eye: the identity matrix. -/
def eyeMat : Mat := fun i j => if i = j then 1 else 0

/-- The all-zero basis state |0...0>. -/
def e0 : Vec := fun i => if i = 0 then 1 else 0

/-- The Bell state (|00> + |11>) / sqrt 2 as a concrete 4-entry vector. -/
def bellVec : Vec :=
  fun i => if i = 0 ∨ i = 3 then ((Real.sqrt 2 : ℝ) : ℂ)⁻¹ else 0

/-- The 2-qubit basis state |11>, index 3 in the little-endian encoding. -/
def e3 : Vec := fun i => if i = 3 then 1 else 0

/-- Spec-side gate-space index: the target-qubit bits of i, read in target
order and reinterpreted as a k-bit index. -/
def specGateIdx (ts : List ℕ) (i : ℕ) : ℕ :=
  ∑ k ∈ Finset.range ts.length, if Nat.testBit i (ts.getD k 0) then 2 ^ k else 0

/-- Spec-side measurement probability: the sum of squared magnitudes over the
basis indices whose bit at position q has the given value. -/
def specProb (n q : ℕ) (b : Bool) (v : Vec) : ℝ :=
  ∑ i ∈ (Finset.range (2 ^ n)).filter (fun i => Nat.testBit i q = b),
    Complex.normSq (v i)

/-- Spec-side sequential measurement relation: the qubits of the list are
measured one after the other, each single-qubit measurement collapsing the
state before the next measurement, consuming one random draw each. -/
inductive MeasSeq (n : ℕ) : List ℕ → (ℕ → ℝ) → Vec → List ℕ → Vec → Prop where
  | nil (rs : ℕ → ℝ) (v : Vec) : MeasSeq n [] rs v [] v
  | cons (q : ℕ) (qs : List ℕ) (rs : ℕ → ℝ) (v v2 w : Vec) (b : ℕ) (bs : List ℕ)
      (h1 : measure n q (rs 0) v = (b, v2))
      (h2 : MeasSeq n qs (fun k => rs (k + 1)) v2 bs w) :
      MeasSeq n (q :: qs) rs v (b :: bs) w

end

theorem bitAt_eq_ite (i q : ℕ) : bitAt i q = if Nat.testBit i q then 1 else 0 := by
  rw [bitAt, Nat.and_one_is_mod, Nat.shiftRight_eq_div_pow, Nat.testBit_to_div_mod]
  rcases Nat.mod_two_eq_zero_or_one (i / 2 ^ q) with h | h <;> simp [h]

theorem gateIdx_eq_spec (ts : List ℕ) (i : ℕ) : gateIdx ts i = specGateIdx ts i := by
  unfold gateIdx specGateIdx
  refine Finset.sum_congr rfl fun k _ => ?_
  rw [bitAt_eq_ite]
  by_cases h : Nat.testBit i (ts.getD k 0) <;> simp [h]

theorem bitAt_eq_iff_testBit (i j q : ℕ) :
    bitAt i q = bitAt j q ↔ Nat.testBit i q = Nat.testBit j q := by
  rw [bitAt_eq_ite, bitAt_eq_ite]
  cases hi : Nat.testBit i q <;> cases hj : Nat.testBit j q <;> simp

theorem bitAt_eq_zero_iff (i q : ℕ) : bitAt i q = 0 ↔ Nat.testBit i q = false := by
  rw [bitAt_eq_ite]
  cases h : Nat.testBit i q <;> simp

theorem bitAt_eq_one_iff (i q : ℕ) : bitAt i q = 1 ↔ Nat.testBit i q = true := by
  rw [bitAt_eq_ite]
  cases h : Nat.testBit i q <;> simp

theorem getProb_zero_eq (n q : ℕ) (v : Vec) : getProb n q 0 v = specProb n q false v := by
  unfold getProb specProb
  rw [Finset.sum_filter]
  refine Finset.sum_congr rfl fun i _ => ?_
  rw [bitAt_eq_ite]
  cases h : Nat.testBit i q <;> simp

theorem getProb_one_eq (n q : ℕ) (v : Vec) : getProb n q 1 v = specProb n q true v := by
  unfold getProb specProb
  rw [Finset.sum_filter]
  refine Finset.sum_congr rfl fun i _ => ?_
  rw [bitAt_eq_ite]
  cases h : Nat.testBit i q <;> simp

theorem sqsum_nonneg (n : ℕ) (v : Vec) : 0 ≤ sqsum n v :=
  Finset.sum_nonneg fun i _ => Complex.normSq_nonneg (v i)

theorem getProb_nonneg (n q o : ℕ) (v : Vec) : 0 ≤ getProb n q o v := by
  refine Finset.sum_nonneg fun i _ => ?_
  by_cases h : bitAt i q = o <;> simp [h, Complex.normSq_nonneg]

theorem vnorm_nonneg (n : ℕ) (v : Vec) : 0 ≤ vnorm n v := Real.sqrt_nonneg _

theorem vnorm_pos_iff (n : ℕ) (v : Vec) : 0 < vnorm n v ↔ 0 < sqsum n v := by
  rw [vnorm, Real.sqrt_pos]

theorem normalize_zero_entry (n : ℕ) (v : Vec) (i : ℕ) (h : v i = 0) :
    normalize n v i = 0 := by
  unfold normalize
  by_cases hp : 0 < vnorm n v <;> simp [hp, h]

theorem sqsum_normalize (n : ℕ) (v : Vec) (h : 0 < sqsum n v) :
    sqsum n (normalize n v) = 1 := by
  have hpos : 0 < vnorm n v := (vnorm_pos_iff n v).mpr h
  have hs : vnorm n v * vnorm n v = sqsum n v := Real.mul_self_sqrt (le_of_lt h)
  unfold normalize
  rw [if_pos hpos]
  unfold sqsum
  have : ∀ i ∈ Finset.range (2 ^ n),
      Complex.normSq (v i / (vnorm n v : ℂ)) =
        Complex.normSq (v i) / (vnorm n v * vnorm n v) := by
    intro i _
    rw [Complex.normSq_div, Complex.normSq_ofReal]
  rw [Finset.sum_congr rfl this, ← Finset.sum_div, hs]
  exact div_self (ne_of_gt h)

theorem vnorm_normalize (n : ℕ) (v : Vec) (h : 0 < vnorm n v) :
    vnorm n (normalize n v) = 1 := by
  rw [vnorm, sqsum_normalize n v ((vnorm_pos_iff n v).mp h), Real.sqrt_one]

theorem normalize_of_sqsum_one (n : ℕ) (v : Vec) (h : sqsum n v = 1) :
    normalize n v = v := by
  have hv : vnorm n v = 1 := by rw [vnorm, h, Real.sqrt_one]
  funext i
  rw [normalize, if_pos (by rw [hv]; norm_num), hv]
  simp

theorem normalize_of_sqsum_zero (n : ℕ) (v : Vec) (h : sqsum n v = 0) :
    normalize n v = v := by
  have hv : vnorm n v = 0 := by rw [vnorm, h, Real.sqrt_zero]
  rw [normalize, if_neg (by rw [hv]; exact lt_irrefl 0)]

theorem sqsum_collapseVec (n q o : ℕ) (v : Vec) :
    sqsum n (collapseVec q o v) = getProb n q o v := by
  unfold sqsum collapseVec getProb
  refine Finset.sum_congr rfl fun i _ => ?_
  by_cases h : bitAt i q = o <;> simp [h]

theorem getProb_eq_zero_of_support (n q o : ℕ) (w : Vec)
    (h : ∀ i, bitAt i q = o → w i = 0) : getProb n q o w = 0 := by
  unfold getProb
  refine Finset.sum_eq_zero fun i _ => ?_
  by_cases hb : bitAt i q = o
  · simp [hb, h i hb]
  · simp [hb]

theorem getProb_eq_sqsum_of_support (n q o : ℕ) (w : Vec)
    (h : ∀ i, bitAt i q ≠ o → w i = 0) : getProb n q o w = sqsum n w := by
  unfold getProb sqsum
  refine Finset.sum_congr rfl fun i _ => ?_
  by_cases hb : bitAt i q = o
  · simp [hb]
  · simp [hb, h i hb]

theorem collapseVec_of_support (q o : ℕ) (w : Vec)
    (h : ∀ i, bitAt i q ≠ o → w i = 0) : collapseVec q o w = w := by
  funext i
  unfold collapseVec
  by_cases hb : bitAt i q = o
  · simp [hb]
  · simp [hb, h i hb]

theorem vnorm_e0_one : vnorm 1 e0 = 1 := by
  have h : sqsum 1 e0 = 1 := by
    unfold sqsum e0
    rw [show (2 : ℕ) ^ 1 = 2 from rfl, Finset.sum_range_succ, Finset.sum_range_succ,
      Finset.sum_range_zero]
    norm_num
  rw [vnorm, h, Real.sqrt_one]

/-- Claim C1: the expanded full-space operator has, at every pair of basis
indices agreeing on all non-target bits, the gate entry at the k-bit indices
read off the target bits in target order, and 0 elsewhere; a gate already
spanning all qubits with target list [0, ..., n-1] is passed through
unchanged by the full-matrix builder. -/
theorem claim_C1 (n : ℕ) (g : Mat) (ts : List ℕ) (hts : ∀ t ∈ ts, t < n)
    (i j : ℕ) (hi : i < 2 ^ n) (hj : j < 2 ^ n) :
    expandGate n g ts i j =
      (if ∀ q < n, q ∉ ts → Nat.testBit i q = Nat.testBit j q then
        g (specGateIdx ts i) (specGateIdx ts j)
      else 0)
    ∧ buildFull n ⟨n, g⟩ (List.range n) = g := by
  constructor
  · have hcond :
        (∀ q ∈ (List.range n).filter (fun q => decide (q ∉ ts)), bitAt i q = bitAt j q) ↔
          (∀ q, q < n → q ∉ ts → Nat.testBit i q = Nat.testBit j q) := by
      constructor
      · intro h q hq hnot
        exact (bitAt_eq_iff_testBit i j q).mp
          (h q (by simp [List.mem_filter, List.mem_range, hq, hnot]))
      · intro h q hq
        simp only [List.mem_filter, List.mem_range, decide_eq_true_eq] at hq
        exact (bitAt_eq_iff_testBit i j q).mpr (h q hq.1 hq.2)
    simp only [expandGate]
    rw [gateIdx_eq_spec, gateIdx_eq_spec]
    exact if_congr hcond rfl rfl
  · unfold buildFull
    rw [if_pos ⟨rfl, rfl⟩]

theorem claim_C1_witness :
    (∀ t ∈ [0], t < 2) ∧ (1 : ℕ) < 2 ^ 2 ∧ (3 : ℕ) < 2 ^ 2 ∧
    (expandGate 2 CNOTmat [0] 1 3 =
        (if ∀ q : ℕ, q < 2 → q ∉ [0] → Nat.testBit 1 q = Nat.testBit 3 q then
          CNOTmat (specGateIdx [0] 1) (specGateIdx [0] 3)
        else 0)
      ∧ buildFull 2 ⟨2, CNOTmat⟩ (List.range 2) = CNOTmat) := by
  refine ⟨by decide, by norm_num, by norm_num, ?_⟩
  exact claim_C1 2 CNOTmat [0] (by decide) 1 3 (by norm_num) (by norm_num)

/-- Claim C2: measure computes P(0) as the squared-magnitude mass of the
indices whose bit q is 0, returns 0 when r < P(0) and 1 otherwise, collapses
by zeroing the amplitudes whose bit q disagrees with the outcome followed by
renormalization, and always returns 0 or 1. -/
theorem claim_C2 (n q : ℕ) (r : ℝ) (v : Vec) :
    (measure n q r v).1 = (if r < specProb n q false v then 0 else 1)
    ∧ (measure n q r v).2 =
        normalize n (fun i =>
          if Nat.testBit i q = ((measure n q r v).1 == 1) then v i else 0)
    ∧ ((measure n q r v).1 = 0 ∨ (measure n q r v).1 = 1) := by
  have hp : getProb n q 0 v = specProb n q false v := getProb_zero_eq n q v
  by_cases hr : r < getProb n q 0 v
  · have h1 : (measure n q r v).1 = 0 := by simp [measure, hr]
    have h2 : (measure n q r v).2 = collapse n q 0 v := by simp [measure, hr]
    refine ⟨by rw [h1, ← hp, if_pos hr], ?_, Or.inl h1⟩
    have hmask : (fun i => if Nat.testBit i q = ((0 : ℕ) == 1) then v i else 0) =
        collapseVec q 0 v := by
      funext i
      unfold collapseVec
      cases hb : Nat.testBit i q with
      | false =>
        have hb0 : bitAt i q = 0 := (bitAt_eq_zero_iff i q).mpr hb
        simp [hb, hb0]
      | true =>
        have hb1 : bitAt i q = 1 := (bitAt_eq_one_iff i q).mpr hb
        simp [hb, hb1]
    rw [h2, h1, hmask]
    rfl
  · have h1 : (measure n q r v).1 = 1 := by simp [measure, hr]
    have h2 : (measure n q r v).2 = collapse n q 1 v := by simp [measure, hr]
    refine ⟨by rw [h1, ← hp, if_neg hr], ?_, Or.inr h1⟩
    have hmask : (fun i => if Nat.testBit i q = ((1 : ℕ) == 1) then v i else 0) =
        collapseVec q 1 v := by
      funext i
      unfold collapseVec
      cases hb : Nat.testBit i q with
      | false =>
        have hb0 : bitAt i q = 0 := (bitAt_eq_zero_iff i q).mpr hb
        simp [hb, hb0]
      | true =>
        have hb1 : bitAt i q = 1 := (bitAt_eq_one_iff i q).mpr hb
        simp [hb, hb1]
    rw [h2, h1, hmask]
    rfl

/-- Claim C4 as amended: construction with an explicit vector fails exactly
when the length differs from 2^n (nothing is stored on failure); on success
the stored vector is the input normalized, whose Euclidean norm is 1 whenever
the input has positive norm (the all-zero input is stored unchanged with norm
0); without a vector the state is the basis state |0...0>. -/
theorem claim_C4 (n : ℕ) (l : List ℂ) :
    ((initSV n (some l)).isSome = true ↔ l.length = 2 ^ n)
    ∧ (l.length = 2 ^ n →
        initSV n (some l) = some (normalize n (fun i => l.getD i 0)))
    ∧ (0 < vnorm n (fun i => l.getD i 0) →
        vnorm n (normalize n (fun i => l.getD i 0)) = 1)
    ∧ initSV n none = some e0 := by
  refine ⟨?_, ?_, ?_, rfl⟩
  · unfold initSV
    by_cases h : l.length = 2 ^ n <;> simp [h]
  · intro h
    show (if l.length = 2 ^ n then some (normalize n fun i => l.getD i 0) else none) =
      some (normalize n fun i => l.getD i 0)
    rw [if_pos h]
  · intro h
    exact vnorm_normalize n _ h

theorem claim_C4_witness :
    ([(1 : ℂ)].length = 2 ^ 0)
    ∧ 0 < vnorm 0 (fun i => [(1 : ℂ)].getD i 0)
    ∧ vnorm 0 (normalize 0 (fun i => [(1 : ℂ)].getD i 0)) = 1 := by
  have hpos : 0 < vnorm 0 (fun i => [(1 : ℂ)].getD i 0) := by
    have h : sqsum 0 (fun i => [(1 : ℂ)].getD i 0) = 1 := by
      unfold sqsum
      rw [show (2 : ℕ) ^ 0 = 1 from rfl, Finset.sum_range_succ, Finset.sum_range_zero]
      norm_num
    rw [vnorm, h, Real.sqrt_one]
    norm_num
  exact ⟨rfl, hpos, (claim_C4 0 [1]).2.2.1 hpos⟩

theorem claim_C4_counterexample :
    (initSV 1 (some [0, 0])).isSome = true
    ∧ vnorm 1 ((initSV 1 (some [0, 0])).getD e0) ≠ 1 := by
  have hz : sqsum 1 (fun i => ([0, 0] : List ℂ).getD i 0) = 0 := by
    unfold sqsum
    rw [show (2 : ℕ) ^ 1 = 2 from rfl, Finset.sum_range_succ, Finset.sum_range_succ,
      Finset.sum_range_zero]
    norm_num
  have hinit : initSV 1 (some [0, 0]) =
      some (normalize 1 (fun i => ([0, 0] : List ℂ).getD i 0)) := by
    show (if ([0, 0] : List ℂ).length = 2 ^ 1 then
        some (normalize 1 fun i => ([0, 0] : List ℂ).getD i 0) else none) =
      some (normalize 1 fun i => ([0, 0] : List ℂ).getD i 0)
    norm_num
  constructor
  · rw [hinit]
    rfl
  · rw [hinit, Option.getD_some, normalize_of_sqsum_zero 1 _ hz, vnorm, hz, Real.sqrt_zero]
    norm_num

/-- Claim C5: measure_all measures every qubit in index order, qubit 0 first,
returning the list of the n outcomes, and refines the sequential relation in
which each single-qubit measurement collapses the state before the next one
runs. -/
theorem claim_C5 (n : ℕ) (rs : ℕ → ℝ) (v : Vec) :
    MeasSeq n (List.range n) rs v (measureAll n rs v).1 (measureAll n rs v).2
    ∧ (measureAll n rs v).1.length = n := by
  have key : ∀ (qs : List ℕ) (rs : ℕ → ℝ) (v : Vec),
      MeasSeq n qs rs v (measureList n rs qs v).1 (measureList n rs qs v).2
      ∧ (measureList n rs qs v).1.length = qs.length := by
    intro qs
    induction qs with
    | nil => exact fun rs v => ⟨MeasSeq.nil rs v, rfl⟩
    | cons q qs ih =>
      intro rs v
      refine ⟨?_, ?_⟩
      · simp only [measureList]
        exact MeasSeq.cons q qs rs v (measure n q (rs 0) v).2 _ (measure n q (rs 0) v).1 _
          rfl (ih (fun k => rs (k + 1)) (measure n q (rs 0) v).2).1
      · simp only [measureList, List.length_cons]
        rw [(ih (fun k => rs (k + 1)) (measure n q (rs 0) v).2).2]
  refine ⟨(key (List.range n) rs v).1, ?_⟩
  show (measureList n rs (List.range n) v).1.length = n
  rw [(key (List.range n) rs v).2, List.length_range]

/-- Claim C6: fidelity fails exactly when the qubit counts differ (no state is
touched in the functional model), and for equal counts returns the squared
magnitude of the inner product of the two state vectors. -/
theorem claim_C6 (n m : ℕ) (v w : Vec) :
    (fidelity n m v w = none ↔ n ≠ m)
    ∧ (n = m →
        fidelity n m v w =
          some (Complex.normSq (∑ i ∈ Finset.range (2 ^ n), (starRingEnd ℂ) (v i) * w i))) := by
  constructor
  · unfold fidelity
    by_cases h : n = m <;> simp [h]
  · intro h
    unfold fidelity
    rw [if_pos h, Complex.sq_abs]

theorem claim_C6_witness :
    (0 : ℕ) = 0 ∧
    fidelity 0 0 e0 e0 =
      some (Complex.normSq (∑ i ∈ Finset.range (2 ^ 0), (starRingEnd ℂ) (e0 i) * e0 i)) :=
  ⟨rfl, (claim_C6 0 0 e0 e0).2 rfl⟩

/-- Claim C7: applying the 2^n x 2^n identity on targets [0, ..., n-1] leaves
every stored amplitude of a unit-norm state unchanged. -/
theorem claim_C7 (n : ℕ) (v : Vec) (hv : vnorm n v = 1) :
    ∀ i < 2 ^ n, applyGate n ⟨n, eyeMat⟩ (List.range n) v i = v i := by
  have hfull : buildFull n ⟨n, eyeMat⟩ (List.range n) = eyeMat := by
    unfold buildFull
    rw [if_pos ⟨rfl, rfl⟩]
  have hmul : ∀ i < 2 ^ n, mulVec n eyeMat v i = v i := by
    intro i hi
    unfold mulVec eyeMat
    rw [Finset.sum_eq_single i]
    · simp
    · intro j _ hj
      simp [Ne.symm hj]
    · intro h
      exact absurd (Finset.mem_range.mpr hi) h
  have hsq : sqsum n (mulVec n eyeMat v) = sqsum n v := by
    unfold sqsum
    exact Finset.sum_congr rfl fun i hi => by rw [hmul i (Finset.mem_range.mp hi)]
  have h1 : sqsum n v = 1 := by
    have := hv
    rw [vnorm] at this
    nlinarith [Real.sq_sqrt (sqsum_nonneg n v), sqsum_nonneg n v]
  intro i hi
  unfold applyGate
  rw [hfull, normalize_of_sqsum_one n _ (by rw [hsq, h1])]
  exact hmul i hi

theorem claim_C7_witness :
    vnorm 1 e0 = 1 ∧ applyGate 1 ⟨1, eyeMat⟩ (List.range 1) e0 0 = e0 0 :=
  ⟨vnorm_e0_one, claim_C7 1 e0 vnorm_e0_one 0 (by norm_num)⟩

/-- Claim C8: on exactly 2 qubits is_entangled answers False exactly when the
second singular value of the reshaped 2x2 amplitude matrix is below 1e-10, and
on more than 2 qubits it returns the fixed conservative answer True. -/
theorem claim_C8 (n : ℕ) (v : Vec) :
    (¬ isEntangled 2 v ↔ sv2 (reshape2 v) < 1e-10) ∧ (2 < n → isEntangled n v) := by
  constructor
  · simp [isEntangled]
  · intro h
    unfold isEntangled
    rw [if_pos (by omega)]
    trivial

theorem claim_C8_witness : 2 < 3 ∧ isEntangled 3 e0 :=
  ⟨by norm_num, (claim_C8 3 e0).2 (by norm_num)⟩

/-- Claim C9: the branch for qubit counts other than 2 also fires for a single
qubit, so is_entangled reports True on every 1-qubit state. -/
theorem claim_C9 (v : Vec) : isEntangled 1 v := by
  unfold isEntangled
  rw [if_pos (by norm_num)]
  trivial

theorem collapse_support (n q o : ℕ) (v : Vec) (i : ℕ) (h : bitAt i q ≠ o) :
    collapse n q o v i = 0 := by
  unfold collapse
  apply normalize_zero_entry
  unfold collapseVec
  rw [if_neg h]

theorem getProb_collapse_ne (n q o p : ℕ) (v : Vec) (h : p ≠ o) :
    getProb n q p (collapse n q o v) = 0 :=
  getProb_eq_zero_of_support n q p _ fun i hb =>
    collapse_support n q o v i (by rw [hb]; exact h)

theorem collapseVec_collapse (n q o : ℕ) (v : Vec) :
    collapseVec q o (collapse n q o v) = collapse n q o v :=
  collapseVec_of_support q o _ fun i hb => collapse_support n q o v i hb

theorem sqsum_collapse_pos (n q o : ℕ) (v : Vec) (h : 0 < getProb n q o v) :
    sqsum n (collapse n q o v) = 1 := by
  unfold collapse
  exact sqsum_normalize n _ (by rw [sqsum_collapseVec]; exact h)

theorem collapse_of_prob_zero (n q o : ℕ) (v : Vec) (h : getProb n q o v = 0) :
    collapse n q o v = collapseVec q o v := by
  unfold collapse
  exact normalize_of_sqsum_zero n _ (by rw [sqsum_collapseVec]; exact h)

theorem getProb_collapse_self_pos (n q o : ℕ) (v : Vec) (h : 0 < getProb n q o v) :
    getProb n q o (collapse n q o v) = 1 := by
  rw [getProb_eq_sqsum_of_support n q o _ fun i hb => collapse_support n q o v i hb,
    sqsum_collapse_pos n q o v h]

theorem measure_collapse_fix (n q o : ℕ) (v : Vec) :
    collapse n q o (collapse n q o v) = collapse n q o v := by
  by_cases h : 0 < getProb n q o v
  · calc collapse n q o (collapse n q o v)
        = normalize n (collapseVec q o (collapse n q o v)) := rfl
      _ = normalize n (collapse n q o v) := by rw [collapseVec_collapse]
      _ = collapse n q o v := normalize_of_sqsum_one n _ (sqsum_collapse_pos n q o v h)
  · have h0 : getProb n q o v = 0 :=
      le_antisymm (not_lt.mp h) (getProb_nonneg n q o v)
    calc collapse n q o (collapse n q o v)
        = normalize n (collapseVec q o (collapse n q o v)) := rfl
      _ = normalize n (collapse n q o v) := by rw [collapseVec_collapse]
      _ = collapse n q o v := by
          refine normalize_of_sqsum_zero n _ ?_
          rw [collapse_of_prob_zero n q o v h0, sqsum_collapseVec, h0]

/-- Claim C10: once measure has produced outcome b, the probability of the
opposite outcome is exactly 0, and every further measurement of the same qubit
with a draw in [0, 1) returns b again and leaves the set of nonzero stored
amplitudes unchanged. -/
theorem claim_C10 (n q : ℕ) (r : ℝ) (v : Vec) (hv : vnorm n v = 1) (hr : 0 ≤ r) :
    getProb n q (1 - (measure n q r v).1) ((measure n q r v).2) = 0
    ∧ ∀ r' : ℝ, 0 ≤ r' → r' < 1 →
        (measure n q r' ((measure n q r v).2)).1 = (measure n q r v).1
        ∧ ∀ i < 2 ^ n,
            ((measure n q r' ((measure n q r v).2)).2 i ≠ 0 ↔ (measure n q r v).2 i ≠ 0) := by
  by_cases hrp : r < getProb n q 0 v
  · have hp0 : 0 < getProb n q 0 v := lt_of_le_of_lt hr hrp
    have h1 : (measure n q r v).1 = 0 := by simp [measure, hrp]
    have h2 : (measure n q r v).2 = collapse n q 0 v := by simp [measure, hrp]
    constructor
    · rw [h1, h2]
      exact getProb_collapse_ne n q 0 1 v (by norm_num)
    · intro r' hr0 hr1
      have hgp : getProb n q 0 (collapse n q 0 v) = 1 := getProb_collapse_self_pos n q 0 v hp0
      have hcond : r' < getProb n q 0 (collapse n q 0 v) := by rw [hgp]; exact hr1
      have ho : (measure n q r' (collapse n q 0 v)).1 = 0 := by simp [measure, hcond]
      have hpost : (measure n q r' (collapse n q 0 v)).2 = collapse n q 0 v := by
        have he : (measure n q r' (collapse n q 0 v)).2 =
            collapse n q 0 (collapse n q 0 v) := by simp [measure, hcond]
        rw [he, measure_collapse_fix]
      rw [h1, h2]
      exact ⟨ho, fun i _ => by rw [hpost]⟩
  · have h1 : (measure n q r v).1 = 1 := by simp [measure, hrp]
    have h2 : (measure n q r v).2 = collapse n q 1 v := by simp [measure, hrp]
    constructor
    · rw [h1, h2]
      exact getProb_collapse_ne n q 1 0 v (by norm_num)
    · intro r' hr0 hr1
      have hgp : getProb n q 0 (collapse n q 1 v) = 0 := getProb_collapse_ne n q 1 0 v (by norm_num)
      have hcond : ¬ r' < getProb n q 0 (collapse n q 1 v) := by
        rw [hgp]; exact not_lt.mpr hr0
      have ho : (measure n q r' (collapse n q 1 v)).1 = 1 := by simp [measure, hcond]
      have hpost : (measure n q r' (collapse n q 1 v)).2 = collapse n q 1 v := by
        have he : (measure n q r' (collapse n q 1 v)).2 =
            collapse n q 1 (collapse n q 1 v) := by simp [measure, hcond]
        rw [he, measure_collapse_fix]
      rw [h1, h2]
      exact ⟨ho, fun i _ => by rw [hpost]⟩

theorem normSq_inv_sqrt2 : Complex.normSq (((Real.sqrt 2 : ℝ) : ℂ)⁻¹) = 1 / 2 := by
  rw [← Complex.ofReal_inv, Complex.normSq_ofReal, ← mul_inv,
    Real.mul_self_sqrt (by norm_num : (0 : ℝ) ≤ 2)]
  norm_num

theorem sqrt_half_eq : Real.sqrt (1 / 2) = (Real.sqrt 2)⁻¹ := by
  rw [show (1 / 2 : ℝ) = 2⁻¹ by norm_num, Real.sqrt_inv]

theorem sqrt2C_ne_zero : ((Real.sqrt 2 : ℝ) : ℂ) ≠ 0 := by
  exact_mod_cast Real.sqrt_ne_zero'.mpr (by norm_num : (0 : ℝ) < 2)

theorem buildFull_H : buildFull 2 ⟨1, Hmat⟩ [0] = expandGate 2 Hmat [0] := by
  have h : ¬ ((⟨1, Hmat⟩ : GateM).k = 2 ∧ [0] = List.range 2) := by
    rintro ⟨h1, -⟩
    simp at h1
  unfold buildFull
  rw [if_neg h]

theorem mulVecH_e0 (i : ℕ) :
    mulVec 2 (expandGate 2 Hmat [0]) e0 i = expandGate 2 Hmat [0] i 0 := by
  unfold mulVec
  rw [show (2 : ℕ) ^ 2 = 4 from rfl, Finset.sum_range_succ, Finset.sum_range_succ,
    Finset.sum_range_succ, Finset.sum_range_succ, Finset.sum_range_zero]
  simp [e0]

theorem expandH_entries :
    expandGate 2 Hmat [0] 0 0 = ((Real.sqrt 2 : ℝ) : ℂ)⁻¹
    ∧ expandGate 2 Hmat [0] 1 0 = ((Real.sqrt 2 : ℝ) : ℂ)⁻¹
    ∧ expandGate 2 Hmat [0] 2 0 = 0
    ∧ expandGate 2 Hmat [0] 3 0 = 0 := by
  refine ⟨?_, ?_, ?_, ?_⟩ <;>
    simp +decide [expandGate, gateIdx, bitAt, Hmat, Finset.sum_range_succ]

theorem state1_eq :
    applyGate 2 ⟨1, Hmat⟩ [0] e0 = mulVec 2 (expandGate 2 Hmat [0]) e0 := by
  have hsq : sqsum 2 (mulVec 2 (expandGate 2 Hmat [0]) e0) = 1 := by
    unfold sqsum
    rw [show (2 : ℕ) ^ 2 = 4 from rfl, Finset.sum_range_succ, Finset.sum_range_succ,
      Finset.sum_range_succ, Finset.sum_range_succ, Finset.sum_range_zero,
      mulVecH_e0 0, mulVecH_e0 1, mulVecH_e0 2, mulVecH_e0 3,
      expandH_entries.1, expandH_entries.2.1, expandH_entries.2.2.1,
      expandH_entries.2.2.2, normSq_inv_sqrt2]
    norm_num
  unfold applyGate
  rw [buildFull_H, normalize_of_sqsum_one 2 _ hsq]

theorem state1_vals :
    applyGate 2 ⟨1, Hmat⟩ [0] e0 0 = ((Real.sqrt 2 : ℝ) : ℂ)⁻¹
    ∧ applyGate 2 ⟨1, Hmat⟩ [0] e0 1 = ((Real.sqrt 2 : ℝ) : ℂ)⁻¹
    ∧ applyGate 2 ⟨1, Hmat⟩ [0] e0 2 = 0
    ∧ applyGate 2 ⟨1, Hmat⟩ [0] e0 3 = 0 := by
  refine ⟨?_, ?_, ?_, ?_⟩ <;> rw [state1_eq, mulVecH_e0]
  · exact expandH_entries.1
  · exact expandH_entries.2.1
  · exact expandH_entries.2.2.1
  · exact expandH_entries.2.2.2

theorem mulVecCNOT_vals (v : Vec) :
    mulVec 2 CNOTmat v 0 = v 0 ∧ mulVec 2 CNOTmat v 1 = v 3
    ∧ mulVec 2 CNOTmat v 2 = v 2 ∧ mulVec 2 CNOTmat v 3 = v 1 := by
  refine ⟨?_, ?_, ?_, ?_⟩ <;>
    · unfold mulVec
      rw [show (2 : ℕ) ^ 2 = 4 from rfl, Finset.sum_range_succ, Finset.sum_range_succ,
        Finset.sum_range_succ, Finset.sum_range_succ, Finset.sum_range_zero]
      norm_num [CNOTmat]

theorem state2_eq :
    applyGate 2 ⟨2, CNOTmat⟩ [0, 1] (applyGate 2 ⟨1, Hmat⟩ [0] e0) =
      mulVec 2 CNOTmat (applyGate 2 ⟨1, Hmat⟩ [0] e0) := by
  have hbf : buildFull 2 ⟨2, CNOTmat⟩ [0, 1] = CNOTmat := by
    unfold buildFull
    rw [if_pos ⟨rfl, by decide⟩]
  have hsq : sqsum 2 (mulVec 2 CNOTmat (applyGate 2 ⟨1, Hmat⟩ [0] e0)) = 1 := by
    unfold sqsum
    rw [show (2 : ℕ) ^ 2 = 4 from rfl, Finset.sum_range_succ, Finset.sum_range_succ,
      Finset.sum_range_succ, Finset.sum_range_succ, Finset.sum_range_zero,
      (mulVecCNOT_vals _).1, (mulVecCNOT_vals _).2.1,
      (mulVecCNOT_vals _).2.2.1, (mulVecCNOT_vals _).2.2.2,
      state1_vals.1, state1_vals.2.1, state1_vals.2.2.1, state1_vals.2.2.2,
      normSq_inv_sqrt2]
    norm_num
  calc applyGate 2 ⟨2, CNOTmat⟩ [0, 1] (applyGate 2 ⟨1, Hmat⟩ [0] e0)
      = normalize 2 (mulVec 2 (buildFull 2 ⟨2, CNOTmat⟩ [0, 1])
          (applyGate 2 ⟨1, Hmat⟩ [0] e0)) := rfl
    _ = normalize 2 (mulVec 2 CNOTmat (applyGate 2 ⟨1, Hmat⟩ [0] e0)) := by rw [hbf]
    _ = mulVec 2 CNOTmat (applyGate 2 ⟨1, Hmat⟩ [0] e0) :=
        normalize_of_sqsum_one 2 _ hsq

theorem bell_p0 : getProb 2 0 0 bellVec = 1 / 2 := by
  unfold getProb
  rw [show (2 : ℕ) ^ 2 = 4 from rfl, Finset.sum_range_succ, Finset.sum_range_succ,
    Finset.sum_range_succ, Finset.sum_range_succ, Finset.sum_range_zero]
  simp +decide [bitAt, bellVec, normSq_inv_sqrt2]

theorem collapse0_bell : collapse 2 0 0 bellVec = e0 := by
  have hm : collapseVec 0 0 bellVec =
      (fun i => if i = 0 then ((Real.sqrt 2 : ℝ) : ℂ)⁻¹ else 0) := by
    funext i
    unfold collapseVec bellVec
    by_cases h0 : i = 0
    · subst h0
      simp +decide [bitAt]
    · by_cases h3 : i = 3
      · subst h3
        simp +decide [bitAt]
      · simp [h0, h3]
  have hsqg : sqsum 2 (fun i => if i = 0 then ((Real.sqrt 2 : ℝ) : ℂ)⁻¹ else 0) = 1 / 2 := by
    unfold sqsum
    rw [show (2 : ℕ) ^ 2 = 4 from rfl, Finset.sum_range_succ, Finset.sum_range_succ,
      Finset.sum_range_succ, Finset.sum_range_succ, Finset.sum_range_zero]
    simp [normSq_inv_sqrt2]
  have hvn : vnorm 2 (fun i => if i = 0 then ((Real.sqrt 2 : ℝ) : ℂ)⁻¹ else 0) =
      (Real.sqrt 2)⁻¹ := by
    rw [vnorm, hsqg, sqrt_half_eq]
  unfold collapse
  rw [hm]
  unfold normalize
  rw [hvn, if_pos (by positivity)]
  funext i
  by_cases h0 : i = 0
  · subst h0
    simp [e0, Complex.ofReal_inv, div_self (inv_ne_zero sqrt2C_ne_zero)]
  · simp [e0, h0]

theorem collapse1_bell : collapse 2 0 1 bellVec = e3 := by
  have hm : collapseVec 0 1 bellVec =
      (fun i => if i = 3 then ((Real.sqrt 2 : ℝ) : ℂ)⁻¹ else 0) := by
    funext i
    unfold collapseVec bellVec
    by_cases h0 : i = 0
    · subst h0
      simp +decide [bitAt]
    · by_cases h3 : i = 3
      · subst h3
        simp +decide [bitAt]
      · simp [h0, h3]
  have hsqg : sqsum 2 (fun i => if i = 3 then ((Real.sqrt 2 : ℝ) : ℂ)⁻¹ else 0) = 1 / 2 := by
    unfold sqsum
    rw [show (2 : ℕ) ^ 2 = 4 from rfl, Finset.sum_range_succ, Finset.sum_range_succ,
      Finset.sum_range_succ, Finset.sum_range_succ, Finset.sum_range_zero]
    simp [normSq_inv_sqrt2]
  have hvn : vnorm 2 (fun i => if i = 3 then ((Real.sqrt 2 : ℝ) : ℂ)⁻¹ else 0) =
      (Real.sqrt 2)⁻¹ := by
    rw [vnorm, hsqg, sqrt_half_eq]
  unfold collapse
  rw [hm]
  unfold normalize
  rw [hvn, if_pos (by positivity)]
  funext i
  by_cases h3 : i = 3
  · subst h3
    simp [e3, Complex.ofReal_inv, div_self (inv_ne_zero sqrt2C_ne_zero)]
  · simp [e3, h3]

theorem getProb_e0_q1 : getProb 2 1 0 e0 = 1 := by
  unfold getProb
  rw [show (2 : ℕ) ^ 2 = 4 from rfl, Finset.sum_range_succ, Finset.sum_range_succ,
    Finset.sum_range_succ, Finset.sum_range_succ, Finset.sum_range_zero]
  simp +decide [bitAt, e0]

theorem getProb_e3_q1 : getProb 2 1 0 e3 = 0 := by
  unfold getProb
  rw [show (2 : ℕ) ^ 2 = 4 from rfl, Finset.sum_range_succ, Finset.sum_range_succ,
    Finset.sum_range_succ, Finset.sum_range_succ, Finset.sum_range_zero]
  simp +decide [bitAt, e3]

/-- Claim C3: on 2 qubits, Hadamard on qubit 0 followed by CNOT with control 0
and target 1, starting from |00>, produces the Bell state vector
[1/sqrt 2, 0, 0, 1/sqrt 2]; measuring all qubits of that state returns [0, 0]
or [1, 1] for every admissible sequence of random draws. -/
theorem claim_C3 :
    (∀ i < 4, applyGate 2 ⟨2, CNOTmat⟩ [0, 1] (applyGate 2 ⟨1, Hmat⟩ [0] e0) i = bellVec i)
    ∧ ∀ rs : ℕ → ℝ, 0 ≤ rs 1 → rs 1 < 1 →
        (measureAll 2 rs bellVec).1 = [0, 0] ∨ (measureAll 2 rs bellVec).1 = [1, 1] := by
  constructor
  · intro i hi
    interval_cases i
    · rw [state2_eq, (mulVecCNOT_vals _).1, state1_vals.1]
      simp [bellVec]
    · rw [state2_eq, (mulVecCNOT_vals _).2.1, state1_vals.2.2.2]
      simp [bellVec]
    · rw [state2_eq, (mulVecCNOT_vals _).2.2.1, state1_vals.2.2.1]
      simp [bellVec]
    · rw [state2_eq, (mulVecCNOT_vals _).2.2.2, state1_vals.2.1]
      simp [bellVec]
  · intro rs h0 h1
    by_cases hA : rs 0 < 1 / 2
    · left
      have hm1 : measure 2 0 (rs 0) bellVec = (0, e0) := by
        unfold measure
        rw [bell_p0, if_pos hA, collapse0_bell]
      have hm2 : (measure 2 1 (rs 1) e0).1 = 0 := by
        simp [measure, getProb_e0_q1, h1]
      show (measureList 2 rs (List.range 2) bellVec).1 = [0, 0]
      rw [show List.range 2 = [0, 1] by decide]
      simp only [measureList]
      rw [hm1]
      simpa using hm2
    · right
      have hm1 : measure 2 0 (rs 0) bellVec = (1, e3) := by
        unfold measure
        rw [bell_p0, if_neg hA, collapse1_bell]
      have hm2 : (measure 2 1 (rs 1) e3).1 = 1 := by
        have hlt : ¬ rs 1 < getProb 2 1 0 e3 := by
          rw [getProb_e3_q1]
          exact not_lt.mpr h0
        simp [measure, hlt]
      show (measureList 2 rs (List.range 2) bellVec).1 = [1, 1]
      rw [show List.range 2 = [0, 1] by decide]
      simp only [measureList]
      rw [hm1]
      simpa using hm2

theorem claim_C3_witness :
    (0 : ℝ) ≤ 1 / 2 ∧ (1 / 2 : ℝ) < 1
    ∧ applyGate 2 ⟨2, CNOTmat⟩ [0, 1] (applyGate 2 ⟨1, Hmat⟩ [0] e0) 0 = bellVec 0
    ∧ ((measureAll 2 (fun _ => 1 / 2) bellVec).1 = [0, 0]
        ∨ (measureAll 2 (fun _ => 1 / 2) bellVec).1 = [1, 1]) :=
  ⟨by norm_num, by norm_num, claim_C3.1 0 (by norm_num),
    claim_C3.2 (fun _ => 1 / 2) (by norm_num) (by norm_num)⟩

theorem claim_C10_witness :
    vnorm 1 e0 = 1 ∧ (0 : ℝ) ≤ 0 ∧ (0 : ℝ) ≤ 1 / 2 ∧ (1 / 2 : ℝ) < 1
    ∧ getProb 1 0 (1 - (measure 1 0 0 e0).1) ((measure 1 0 0 e0).2) = 0
    ∧ (measure 1 0 (1 / 2) ((measure 1 0 0 e0).2)).1 = (measure 1 0 0 e0).1
    ∧ ((measure 1 0 (1 / 2) ((measure 1 0 0 e0).2)).2 0 ≠ 0 ↔ (measure 1 0 0 e0).2 0 ≠ 0) := by
  refine ⟨vnorm_e0_one, le_refl 0, by norm_num, by norm_num,
    (claim_C10 1 0 0 e0 vnorm_e0_one (le_refl 0)).1,
    ((claim_C10 1 0 0 e0 vnorm_e0_one (le_refl 0)).2 (1 / 2) (by norm_num) (by norm_num)).1,
    ((claim_C10 1 0 0 e0 vnorm_e0_one (le_refl 0)).2 (1 / 2) (by norm_num)
      (by norm_num)).2 0 (by norm_num)⟩

end QD
